import Mathlib

/-!
# Verification of `gen.py` (js-module-benchmark)

A shallow embedding of the module-tree generator `src/gen.py` and proofs of the
frozen claims C1–C10 about it.

Conventions of the embedding:
* filesystem paths (`pathlib.Path`) are represented by their component lists
  (`List String`, the result of `Path.parts`);
* Python `dict`s are association lists with `find?`-based lookup (key
  uniqueness is enforced by the option validator, so `find?` agrees with the
  dict);
* Python decimal formatting (`f"{index}"`) is modelled by `natRepr` below;
* machine integers are `Nat`/`Int` (all quantities in the program are small
  and exact);
* the pieces of emitted JavaScript text that the claims talk about are
  modelled both textually (the emitted strings) and semantically (evaluators
  of the emitted functions, with JavaScript numbers as `Int`, exact for the
  magnitudes involved).
-/

/-! ## Decimal representation

`decChars fuel n` is the little-endian list of decimal digit characters of
`n`, with structural `fuel ≥ n` so that the kernel can evaluate it.  `natRepr`
is Python's `str(n)` / `f"{n}"`. -/

def decChars : Nat → Nat → List Char
  | 0, _ => []
  | _ + 1, 0 => []
  | fuel + 1, n + 1 => Nat.digitChar ((n + 1) % 10) :: decChars fuel ((n + 1) / 10)

def natRepr (n : Nat) : String :=
  if n = 0 then "0" else ⟨(decChars n n).reverse⟩

/-- Numeric value of a decimal digit character (inverse of `Nat.digitChar`
on digits). -/
def charVal (c : Char) : Nat := c.toNat - '0'.toNat

def decVal : List Char → Nat
  | [] => 0
  | c :: cs => charVal c + 10 * decVal cs

theorem charVal_digitChar : ∀ d : Nat, d < 10 → charVal (Nat.digitChar d) = d := by
  intro d h
  interval_cases d <;> rfl

theorem isDigit_digitChar : ∀ d : Nat, d < 10 → (Nat.digitChar d).isDigit = true := by
  intro d h
  interval_cases d <;> rfl

theorem decChars_val : ∀ (fuel n : Nat), n ≤ fuel → decVal (decChars fuel n) = n := by
  intro fuel
  induction fuel with
  | zero => intro n h; interval_cases n; rfl
  | succ fuel ih =>
    intro n h
    match n with
    | 0 => rfl
    | n + 1 =>
      have hdiv : (n + 1) / 10 ≤ fuel := by
        have := Nat.div_le_self (n + 1) 10
        have h2 : (n + 1) / 10 < n + 1 := Nat.div_lt_self (Nat.succ_pos n) (by omega)
        omega
      have hmod : (n + 1) % 10 < 10 := Nat.mod_lt _ (by omega)
      simp only [decChars, decVal, ih _ hdiv, charVal_digitChar _ hmod]
      omega

theorem decChars_digits : ∀ (fuel n : Nat), ∀ c ∈ decChars fuel n, c.isDigit = true := by
  intro fuel
  induction fuel with
  | zero => intro n c hc; simp [decChars] at hc
  | succ fuel ih =>
    intro n c hc
    match n with
    | 0 => simp [decChars] at hc
    | n + 1 =>
      simp only [decChars, List.mem_cons] at hc
      rcases hc with h | h
      · subst h; exact isDigit_digitChar _ (Nat.mod_lt _ (by omega))
      · exact ih _ _ h

theorem decChars_ne_nil : ∀ (fuel n : Nat), 0 < n → n ≤ fuel → decChars fuel n ≠ [] := by
  intro fuel n h0 hle
  cases fuel with
  | zero => omega
  | succ fuel =>
    cases n with
    | zero => omega
    | succ n => simp [decChars]

theorem decVal_reverse_natRepr : ∀ k : Nat, decVal ((natRepr k).data.reverse) = k := by
  intro k
  unfold natRepr
  by_cases h : k = 0
  · subst h; rfl
  · simp only [if_neg h]
    rw [List.reverse_reverse]
    exact decChars_val k k le_rfl

theorem natRepr_inj : ∀ m n : Nat, natRepr m = natRepr n → m = n := by
  intro m n h
  have hm := decVal_reverse_natRepr m
  rw [h, decVal_reverse_natRepr n] at hm
  omega

theorem natRepr_ne_nil (n : Nat) : (natRepr n).data ≠ [] := by
  unfold natRepr
  by_cases h : n = 0
  · simp [h]
  · simp only [if_neg h]
    intro hc
    have hc' : (decChars n n).reverse = [] := hc
    exact decChars_ne_nil n n (by omega) le_rfl (by simpa using congrArg List.reverse hc')

theorem natRepr_digits (n : Nat) : ∀ c ∈ (natRepr n).data, c.isDigit = true := by
  unfold natRepr
  by_cases h : n = 0
  · simp only [h, if_pos rfl]
    intro c hc
    have : c = '0' := by simpa using hc
    subst this
    rfl
  · simp only [if_neg h]
    intro c hc
    have hc' : c ∈ (decChars n n).reverse := hc
    exact decChars_digits n n c (by simpa using hc')

/-! ## Underscore-joined names

Python's `str(path).replace("/", "_")` on a `pathlib` path whose components
contain no `/` (pathlib splits components at `/` on construction, so stored
components never contain one) is exactly `"_".join(parts)`, modelled by
`joinU`.  `joinUData` is its `List Char` counterpart used in proofs. -/

def joinU : List String → String
  | [] => ""
  | [s] => s
  | s :: ss => s ++ "_" ++ joinU ss

def joinUData : List (List Char) → List Char
  | [] => []
  | [s] => s
  | s :: ss => s ++ '_' :: joinUData ss

theorem joinU_data : ∀ l : List String, (joinU l).data = joinUData (l.map String.data)
  | [] => rfl
  | [s] => rfl
  | s :: t :: ss => by
    show (s ++ "_" ++ joinU (t :: ss)).data = s.data ++ '_' :: joinUData ((t :: ss).map String.data)
    rw [String.data_append, String.data_append, joinU_data (t :: ss), List.append_assoc]
    rfl

/-- A "shaped" component: one leading character followed by a non-empty run of
decimal digits.  Every sibling name `f"{symbol}{index}"` generated by
`expand_recurse` has this form. -/
def ShapedD (l : List Char) : Prop :=
  ∃ c ds, l = c :: ds ∧ ds ≠ [] ∧ ∀ ch ∈ ds, ch.isDigit = true

theorem ShapedD.ne_nil {l : List Char} (h : ShapedD l) : l ≠ [] := by
  obtain ⟨c, ds, rfl, -, -⟩ := h
  simp

/-- A shaped component can never be a proper `'_'`-extension of another
shaped component, because a shaped tail holds only digit characters. -/
theorem shaped_no_ext {a b : List Char} (ha : ShapedD a) (hb : ShapedD b)
    {t : List Char} (h : b = a ++ '_' :: t) : False := by
  obtain ⟨ca, dsa, rfl, -, -⟩ := ha
  obtain ⟨cb, dsb, rfl, -, hdig⟩ := hb
  rw [List.cons_append] at h
  injection h with h1 h2
  have hmem : '_' ∈ dsb := by
    rw [h2]
    exact List.mem_append_right _ (List.mem_cons_self _ _)
  exact absurd (hdig _ hmem) (by decide)

/-- Head separation: a shaped component followed by either nothing or an
underscore-led rest determines itself inside a concatenation. -/
theorem shaped_head_sep {a b ra rb : List Char}
    (ha : ShapedD a) (hb : ShapedD b)
    (hra : ra = [] ∨ ∃ r, ra = '_' :: r) (hrb : rb = [] ∨ ∃ r, rb = '_' :: r)
    (h : a ++ ra = b ++ rb) : a = b ∧ ra = rb := by
  rcases List.append_eq_append_iff.mp h with ⟨t, hbt, hrat⟩ | ⟨t, hat, hrbt⟩
  · cases t with
    | nil =>
      rw [List.append_nil] at hbt
      rw [List.nil_append] at hrat
      exact ⟨hbt.symm, hrat⟩
    | cons x t' =>
      exfalso
      rcases hra with rfl | ⟨r, hr⟩
      · simp at hrat
      · rw [hr, List.cons_append] at hrat
        injection hrat with hx _
        exact shaped_no_ext ha hb (hx ▸ hbt)
  · cases t with
    | nil =>
      rw [List.append_nil] at hat
      rw [List.nil_append] at hrbt
      exact ⟨hat, hrbt.symm⟩
    | cons x t' =>
      exfalso
      rcases hrb with rfl | ⟨r, hr⟩
      · simp at hrbt
      · rw [hr, List.cons_append] at hrbt
        injection hrbt with hx _
        exact shaped_no_ext hb ha (hx ▸ hat)

theorem joinUData_cons_decomp (a : List Char) (as : List (List Char)) :
    ∃ r, joinUData (a :: as) = a ++ r ∧
      ((r = [] ∧ as = []) ∨ ∃ r', r = '_' :: r' ∧ r' = joinUData as ∧ as ≠ []) := by
  cases as with
  | nil => exact ⟨[], by simp [joinUData], Or.inl ⟨rfl, rfl⟩⟩
  | cons b bs => exact ⟨'_' :: joinUData (b :: bs), rfl, Or.inr ⟨_, rfl, rfl, by simp⟩⟩

theorem joinUData_inj : ∀ (as bs : List (List Char)),
    (∀ x ∈ as, ShapedD x) → (∀ x ∈ bs, ShapedD x) →
    joinUData as = joinUData bs → as = bs := by
  intro as
  induction as with
  | nil =>
    intro bs _ hbs h
    cases bs with
    | nil => rfl
    | cons b bs' =>
      exfalso
      obtain ⟨r, hr, -⟩ := joinUData_cons_decomp b bs'
      rw [hr] at h
      obtain ⟨c, ds, rfl, -, -⟩ := hbs b (List.mem_cons_self _ _)
      simp [joinUData] at h
  | cons a as ih =>
    intro bs has hbs h
    cases bs with
    | nil =>
      exfalso
      obtain ⟨r, hr, -⟩ := joinUData_cons_decomp a as
      rw [hr] at h
      obtain ⟨c, ds, rfl, -, -⟩ := has a (List.mem_cons_self _ _)
      simp [joinUData] at h
    | cons b bs' =>
      obtain ⟨ra, hra, hras⟩ := joinUData_cons_decomp a as
      obtain ⟨rb, hrb, hrbs⟩ := joinUData_cons_decomp b bs'
      rw [hra, hrb] at h
      have hsep := shaped_head_sep (has a (List.mem_cons_self _ _))
        (hbs b (List.mem_cons_self _ _))
        (by rcases hras with ⟨h1, -⟩ | ⟨r', h1, -, -⟩
            · exact Or.inl h1
            · exact Or.inr ⟨r', h1⟩)
        (by rcases hrbs with ⟨h1, -⟩ | ⟨r', h1, -, -⟩
            · exact Or.inl h1
            · exact Or.inr ⟨r', h1⟩) h
      obtain ⟨hab, hrarb⟩ := hsep
      rcases hras with ⟨h1, h2⟩ | ⟨ra', h1, h2, -⟩
      · rcases hrbs with ⟨h3, h4⟩ | ⟨rb', h3, -, -⟩
        · rw [hab, h2, h4]
        · exfalso; rw [h1, h3] at hrarb; exact List.noConfusion hrarb
      · rcases hrbs with ⟨h3, -⟩ | ⟨rb', h3, h4, -⟩
        · exfalso; rw [h1, h3] at hrarb; exact List.noConfusion hrarb
        · rw [h1, h3] at hrarb
          injection hrarb with _ hj
          rw [h2, h4] at hj
          rw [hab, ih bs' (fun x hx => has x (List.mem_cons_of_mem _ hx))
            (fun x hx => hbs x (List.mem_cons_of_mem _ hx)) hj]

/-- Injectivity of `"_".join` on lists with a common (arbitrary) head followed
by shaped components — the form of every ancestor chain in the generated
tree (`"A"` followed by `symbol+index` names). -/
theorem joinUData_inj_cons (h0 : List Char) (as bs : List (List Char))
    (has : ∀ x ∈ as, ShapedD x) (hbs : ∀ x ∈ bs, ShapedD x)
    (h : joinUData (h0 :: as) = joinUData (h0 :: bs)) : as = bs := by
  obtain ⟨ra, hra, hras⟩ := joinUData_cons_decomp h0 as
  obtain ⟨rb, hrb, hrbs⟩ := joinUData_cons_decomp h0 bs
  rw [hra, hrb] at h
  have hrarb := List.append_cancel_left h
  rcases hras with ⟨h1, h2⟩ | ⟨ra', h1, h2, -⟩
  · rcases hrbs with ⟨h3, h4⟩ | ⟨rb', h3, -, -⟩
    · rw [h2, h4]
    · exfalso; rw [h1, h3] at hrarb; exact List.noConfusion hrarb
  · rcases hrbs with ⟨h3, -⟩ | ⟨rb', h3, h4, -⟩
    · exfalso; rw [h1, h3] at hrarb; exact List.noConfusion hrarb
    · rw [h1, h3] at hrarb
      injection hrarb with _ hj
      rw [h2, h4] at hj
      exact joinUData_inj as bs has hbs hj

/-- String-level injectivity of `joinU` on chains `head :: shaped…`. -/
theorem joinU_inj_cons (h0 : String) (as bs : List String)
    (has : ∀ x ∈ as, ShapedD x.data) (hbs : ∀ x ∈ bs, ShapedD x.data)
    (h : joinU (h0 :: as) = joinU (h0 :: bs)) : as = bs := by
  have hd := congrArg String.data h
  rw [joinU_data, joinU_data] at hd
  have : as.map String.data = bs.map String.data := by
    apply joinUData_inj_cons h0.data
    · intro x hx
      obtain ⟨y, hy, rfl⟩ := List.mem_map.mp hx
      exact has y hy
    · intro x hx
      obtain ⟨y, hy, rfl⟩ := List.mem_map.mp hx
      exact hbs y hy
    · simpa using hd
  exact List.map_injective_iff.mpr (fun a b hab => String.ext hab) this

/-! ## The data model (`gen.py`, class `Module` and `Options`)

`Options` is the already-validated configuration object (`gen.py`,
`Options.validate_options`): `rules` maps single-character predecessors to
non-empty successor strings, `sizes` maps symbols to byte counts,
`dynamic_imports` is the loading-mode flag.  Association lists model the
Python dicts (validation rejects duplicate keys). -/

structure GenOptions where
  depth : Nat
  rules : List (Char × String)
  sizes : List (Char × Nat)
  dynamic_imports : Bool

/-- `symbol in options.rules` / `options.rules[symbol]`. -/
def lookupRule (rules : List (Char × String)) (c : Char) : Option String :=
  (rules.find? (fun p => p.1 == c)).map (·.2)

/-- `options.sizes.get(symbol, 0)`. -/
def lookupSize (sizes : List (Char × Nat)) (c : Char) : Nat :=
  ((sizes.find? (fun p => p.1 == c)).map (·.2)).getD 0

/-- `gen.py`, class `Module`.  `path` and `submodule_path` are `pathlib`
paths represented by their component lists.  `children` is populated by
`expand_recurse` (modelled below by constructing the node with its final
children). -/
inductive GModule : Type where
  | mk (simple_name : String) (depth : Nat) (index : Nat) (size : Nat)
      (dynamic_import : Bool) (name : String) (path : List String)
      (submodule_path : List String) (children : List GModule)

def GModule.simple_name : GModule → String | .mk s _ _ _ _ _ _ _ _ => s

def GModule.depth : GModule → Nat | .mk _ d _ _ _ _ _ _ _ => d

def GModule.index : GModule → Nat | .mk _ _ i _ _ _ _ _ _ => i

def GModule.size : GModule → Nat | .mk _ _ _ z _ _ _ _ _ => z

def GModule.dynamic_import : GModule → Bool | .mk _ _ _ _ b _ _ _ _ => b

def GModule.name : GModule → String | .mk _ _ _ _ _ n _ _ _ => n

def GModule.path : GModule → List String | .mk _ _ _ _ _ _ p _ _ => p

def GModule.submodule_path : GModule → List String | .mk _ _ _ _ _ _ _ sp _ => sp

def GModule.children : GModule → List GModule | .mk _ _ _ _ _ _ _ _ cs => cs

/-- `Module.__init__` with a parent: the unique name is
`str(parent.submodule_path / name).replace("/", "_")`, the file path is
`parent.submodule_path / (name + ".mjs")`, and the subdirectory path is
`path.parent / simple_name = parent.submodule_path / simple_name`. -/
def mkChildModule (parentSub : List String) (simple_name : String)
    (depth index size : Nat) (dyn : Bool) (children : List GModule) : GModule :=
  GModule.mk simple_name depth index size dyn
    (joinU (parentSub ++ [simple_name]))
    (parentSub ++ [joinU (parentSub ++ [simple_name]) ++ ".mjs"])
    (parentSub ++ [simple_name])
    children

/-- `Module.__init__` with `parent=None` (the root): `name = simple_name`,
`path = Path(name + ".mjs")`, `submodule_path = Path(".") / simple_name =
Path(simple_name)`. -/
def mkRootModule (simple_name : String) (dyn : Bool) (children : List GModule) : GModule :=
  GModule.mk simple_name 0 0 0 dyn simple_name [simple_name ++ ".mjs"] [simple_name] children

/-- `f"{symbol}{index}"`: local name of a generated sibling. -/
def childName (c : Char) (i : Nat) : String := Char.toString c ++ natRepr i

/-- `Module.expand_recurse` (gen.py:165-186), child-construction part: the
children of a node at depth `depth` with subdirectory path `sub`, expanded
with rule symbol `symbol`.  A node is a leaf when its depth equals
`options.depth` or its symbol has no rule.  `fuel` is a structural-recursion
bound; every real call has `fuel > options.depth - depth`, and the root call
uses `fuel = options.depth + 1`. -/
def expandChildren (opts : GenOptions) : Nat → Nat → List String → Char → List GModule
  | 0, _, _, _ => []
  | fuel + 1, depth, sub, symbol =>
    if depth = opts.depth then []
    else
      match lookupRule opts.rules symbol with
      | none => []
      | some expansion =>
        expansion.data.enum.map (fun p =>
          mkChildModule sub (childName p.2 p.1) (depth + 1) p.1
            (lookupSize opts.sizes p.2) opts.dynamic_imports
            (expandChildren opts fuel (depth + 1) (sub ++ [childName p.2 p.1]) p.2))

/-- `Benchmark.create_module_tree`: the fully expanded tree rooted at the
start module (`ROOT_AXIOM = "A"`, depth 0, size 0). -/
def startModule (opts : GenOptions) : GModule :=
  mkRootModule "A" opts.dynamic_imports
    (expandChildren opts (opts.depth + 1) 0 ["A"] 'A')

mutual

/-- The flat accumulator built by `expand_recurse`: each child is appended
and then recursed into, so the accumulator below a node lists its descendants
in creation (preorder) order. -/
def GModule.flatten : GModule → List GModule
  | .mk _ _ _ _ _ _ _ _ cs => flattenList cs

def flattenList : List GModule → List GModule
  | [] => []
  | c :: cs => c :: GModule.flatten c ++ flattenList cs

end

/-- The value of `start_module.expand_recurse(ROOT_AXIOM, options, [])` in
`Benchmark.create_module_tree` — and hence of `Benchmark.modules`.  The two
early returns of `expand_recurse` (`self.depth == options.depth`, `symbol not
in options.rules`) return `None` (Python bare `return`), not the
accumulator; only the fall-through end of the loop returns it. -/
def modulesResult (opts : GenOptions) : Option (List GModule) :=
  if 0 = opts.depth then none
  else
    match lookupRule opts.rules 'A' with
    | none => none
    | some _ => some (startModule opts).flatten

/-! ## C1: the `{A: "AB", B: "BBB"}`, depth 2, empty sizes scenario -/

/-- Validated configuration for the C1/C8 scenario: rules `A:AB,B:BBB`,
depth 2, no sizes, static imports. -/
def opts1 : GenOptions := ⟨2, [('A', "AB"), ('B', "BBB")], [], false⟩

/-- C1: with rules `{A: "AB", B: "BBB"}`, depth 2 and empty sizes, the root
expands to two depth-1 children with symbols `A` and `B` (local names `A0`,
`B1`); the depth-1 `A` child has two depth-2 children and the depth-1 `B`
child has three depth-2 children; and the flat accumulator returned by
`expand_recurse` holds exactly the 7 non-root nodes in creation (preorder)
order. -/
theorem c1_expand_scenario :
    (startModule opts1).children.map GModule.simple_name = ["A0", "B1"] ∧
    (startModule opts1).children.map (fun c => c.simple_name.data.head?) =
      [some 'A', some 'B'] ∧
    (startModule opts1).children.map GModule.depth = [1, 1] ∧
    (startModule opts1).children.map (fun c => c.children.length) = [2, 3] ∧
    (startModule opts1).children.map (fun c => c.children.map GModule.depth) =
      [[2, 2], [2, 2, 2]] ∧
    modulesResult opts1 =
      some ((startModule opts1).flatten) ∧
    (startModule opts1).flatten.map GModule.name =
      ["A_A0", "A_A0_A0", "A_A0_B1", "A_B1", "A_B1_B0", "A_B1_B1", "A_B1_B2"] ∧
    (startModule opts1).flatten.length = 7 :=
  ⟨rfl, rfl, rfl, rfl, rfl, rfl, rfl, rfl⟩

/-! ## `Module.export`: files, directories and artifact content -/

mutual

/-- Files written by `Module.export`: the node's own artifact, then each
child's subtree (gen.py:188-237). -/
def GModule.exportFiles : GModule → List (List String)
  | .mk _ _ _ _ _ _ p _ cs => p :: exportFilesList cs

def exportFilesList : List GModule → List (List String)
  | [] => []
  | c :: cs => c.exportFiles ++ exportFilesList cs

end

mutual

/-- Directories created by `Module.export`: `submodule_path` is created
exactly for nodes that have children (gen.py:234-237). -/
def GModule.exportDirs : GModule → List (List String)
  | .mk _ _ _ _ _ _ _ sp cs =>
    match cs with
    | [] => []
    | c :: cs' => sp :: exportDirsList (c :: cs')

def exportDirsList : List GModule → List (List String)
  | [] => []
  | c :: cs => c.exportDirs ++ exportDirsList cs

end

/-- `Module.write_static_imports`: the `f_{child.name}()` operation strings
(one import line and one call per child, in `children` order). -/
def GModule.staticOperations (m : GModule) : List String :=
  m.children.map (fun c => "f_" ++ c.name ++ "()")

/-- `Module.create_dynamic_imports`: one independent load-and-invoke
operation per child, in `children` order. -/
def GModule.dynamicOperations (m : GModule) : List String :=
  m.children.map (fun c =>
    "import('./" ++ m.simple_name ++ "/" ++ c.name ++ ".mjs').then(m => m.f_"
      ++ c.name ++ "())")

/-- Python `sep.join(strings)`. -/
def joinSep (sep : String) : List String → String
  | [] => ""
  | [s] => s
  | s :: ss => s ++ sep ++ joinSep sep ss

/-- The joined expression string that `Module.export` builds into the local
variable `operations` before the helper is emitted: in static mode the
return expression `"+".join(operations + ["a"])`, in dynamic mode
`",\n    ".join(operations)` (gen.py:201-211).  Its character length is the
`len(operations)` used by the filler sizing. -/
def GModule.opsJoined (m : GModule) : String :=
  if m.dynamic_import then joinSep ",\n    " m.dynamicOperations
  else joinSep "+" (m.staticOperations ++ ["a"])

/-- gen.py:221. -/
def random_digits : Nat := 10

/-- gen.py:222: `(3 + random_digits + 1) + (3 + random_digits + 2)` = 29,
the character width of one `a+=N;a-=N;\n` pair with a 10-digit literal. -/
def instruction_length : Nat := (3 + random_digits + 1) + (3 + random_digits + 2)

/-- gen.py:223-224. -/
def min_range : Nat := 10 ^ (random_digits - 1)

def max_range : Nat := 10 ^ random_digits - 1

/-- Number of filler pairs: `range(math.floor((size - len(operations) * 2) /
instruction_length))` iterates `floor(..)` times when that is positive and 0
times otherwise (`range` of a non-positive count is empty). -/
def fillerCount (size opsLen : Nat) : Nat :=
  (Int.fdiv ((size : Int) - (opsLen : Int) * 2) (instruction_length : Int)).toNat

/-- One emitted filler pair `f"a+={number};a-={number};\n"` (gen.py:229). -/
def fillerInstr (n : Nat) : String :=
  "a+=" ++ natRepr n ++ ";a-=" ++ natRepr n ++ ";\n"

/-- The pseudo-random literals drawn for a node's filler, for an arbitrary
stream `rng` of `random.randint(min_range, max_range)` results. -/
def GModule.fillerLits (m : GModule) (rng : Nat → Nat) : List Nat :=
  (List.range (fillerCount m.size m.opsJoined.length)).map rng

/-- The filler body of the helper routine, emitted iff `self.size` is
truthy (gen.py:213-232). -/
def GModule.helperBody (m : GModule) (rng : Nat → Nat) : Option (List String) :=
  if m.size ≠ 0 then some ((m.fillerLits rng).map fillerInstr) else none

/-- Value returned by the emitted helper (`let a=1;` then `a+=n;a-=n;` per
pair, then `return a+100;`), over `Int` (JavaScript numbers are exact for
these magnitudes). -/
def helperEval (lits : List Nat) : Int :=
  (lits.foldl (fun (a : Int) (n : Nat) => a + (n : Int) - (n : Int)) 1) + 100

/-- The helper's return value for a node, when a helper is emitted at all. -/
def GModule.helperReturn (m : GModule) (rng : Nat → Nat) : Option Int :=
  if m.size ≠ 0 then some (helperEval (m.fillerLits rng)) else none

theorem helperEval_eq : ∀ lits : List Nat, helperEval lits = 101 := by
  have key : ∀ (lits : List Nat) (a : Int),
      lits.foldl (fun (a : Int) (n : Nat) => a + (n : Int) - (n : Int)) a = a := by
    intro lits
    induction lits with
    | nil => intro a; rfl
    | cons n ns ih =>
      intro a
      rw [List.foldl_cons, ih]
      omega
  intro lits
  unfold helperEval
  rw [key]
  rfl

/-- C7: the emitted helper is computationally inert — for every node with a
payload size and every pseudo-random literal stream, each filler pair adds
and subtracts the same literal, so the helper returns the same value (101)
regardless of the stream. -/
theorem c7_helper_inert (m : GModule) (rng rng' : Nat → Nat) :
    m.helperReturn rng = m.helperReturn rng' ∧
    (m.size ≠ 0 → m.helperReturn rng = some 101) := by
  unfold GModule.helperReturn
  by_cases h : m.size = 0
  · simp [h]
  · simp [h, helperEval_eq]

theorem c7_helper_inert_witness :
    (mkChildModule ["A"] "A0" 1 0 2048 false []).helperReturn (fun i => min_range + i)
      = some 101 :=
  (c7_helper_inert (mkChildModule ["A"] "A0" 1 0 2048 false [])
    (fun i => min_range + i) (fun _ => max_range)).2 (by decide)

/-- C9: for a node with positive payload size, the helper is emitted and the
number of filler pairs is `floor((size - 2*len(joined-ops)) / 29)`; for sizes
below `29 + 2*len` (including sizes below `2*len`) zero filler pairs are
produced and nothing fails. -/
theorem c9_filler_count (m : GModule) (rng : Nat → Nat) (h : 0 < m.size) :
    ∃ body, m.helperBody rng = some body ∧
      body.length = fillerCount m.size m.opsJoined.length ∧
      (2 * m.opsJoined.length ≤ m.size →
        (body.length : Int) =
          Int.fdiv ((m.size : Int) - 2 * (m.opsJoined.length : Int)) 29) ∧
      (m.size < 29 + 2 * m.opsJoined.length → body.length = 0) := by
  have h29 : (instruction_length : Int) = 29 := rfl
  have hlen : ((m.fillerLits rng).map fillerInstr).length
      = fillerCount m.size m.opsJoined.length := by
    simp [GModule.fillerLits]
  refine ⟨(m.fillerLits rng).map fillerInstr, ?_, hlen, ?_, ?_⟩
  · unfold GModule.helperBody
    rw [if_pos (by omega)]
  · intro hle
    rw [hlen]
    unfold fillerCount
    rw [h29]
    have hD : (0 : Int) ≤ (m.size : Int) - (m.opsJoined.length : Int) * 2 := by
      omega
    rw [Int.toNat_of_nonneg (Int.fdiv_nonneg hD (by decide))]
    congr 1
    ring
  · intro hlt
    rw [hlen]
    unfold fillerCount
    rw [h29]
    rcases le_or_lt 0 ((m.size : Int) - (m.opsJoined.length : Int) * 2) with hD | hD
    · rw [Int.fdiv_eq_ediv _ (by decide)]
      rw [Int.ediv_eq_zero_of_lt hD (by omega)]
      rfl
    · have hneg := Int.fdiv_neg' hD (by decide : (0 : Int) < 29)
      omega

theorem c9_filler_count_witness :
    0 < (mkChildModule ["A"] "B0" 1 0 2048 false []).size ∧
    ∃ body,
      (mkChildModule ["A"] "B0" 1 0 2048 false []).helperBody (fun _ => min_range)
        = some body ∧
      body.length = fillerCount 2048
        ((mkChildModule ["A"] "B0" 1 0 2048 false []).opsJoined.length) :=
  ⟨by decide,
    match c9_filler_count (mkChildModule ["A"] "B0" 1 0 2048 false [])
      (fun _ => min_range) (by decide) with
    | ⟨body, h1, h2, _, _⟩ => ⟨body, h1, h2⟩⟩

/-! ## C6: the depth-0 boundary -/

/-- Validated configuration with `--depth 0`. -/
def opts6 : GenOptions := ⟨0, [('A', "AB"), ('B', "BBB")], [], false⟩

/-- C6 (code bug witness): at depth 0 the tree is root-only, the module
export writes exactly the root artifact `A.mjs` and creates no
subdirectories — but `expand_recurse`'s first early return (`self.depth ==
options.depth`) is a bare Python `return`, so `Benchmark.modules` is `None`
(modelled by `modulesResult = none`) and `export_modules` then crashes on
`len(self.modules)` with a `TypeError` instead of completing the run. -/
theorem c6_depth0 :
    (startModule opts6).children = [] ∧
    (startModule opts6).exportFiles = [["A.mjs"]] ∧
    (startModule opts6).exportDirs = [] ∧
    modulesResult opts6 = none :=
  ⟨rfl, rfl, rfl, rfl⟩

/-! ## C5: size table `{A: 2048}` with depth 0 -/

/-- The C5 scenario configuration: sizes `{A: 2048}`, depth 0. -/
def opts5 : GenOptions := ⟨0, [('A', "AB"), ('B', "BBB")], [('A', 2048)], false⟩

/-- C5 counterexample: in the `{A: 2048}`, depth-0 scenario the root
artifact contains no filler helper at all — `create_module_tree` constructs
the start module with `size=0` regardless of the size table, so
`Module.export`'s `if self.size:` branch never fires for the root. -/
theorem c5_counterexample :
    (startModule opts5).size = 0 ∧
    (startModule opts5).helperBody (fun _ => min_range) = none ∧
    (startModule opts5).helperReturn (fun _ => min_range) = none :=
  ⟨rfl, rfl, rfl⟩

/-- Depth-1 contrast configuration for C5: rules `{A: "A"}`, depth 1,
sizes `{A: 2048}`. -/
def opts5b : GenOptions := ⟨1, [('A', "A")], [('A', 2048)], false⟩

/-- C5 amended: the root module is always created with payload size 0, so no
configuration ever gives the root artifact a filler helper; the size table
applies to expanded (non-root) nodes, where a node with symbol `A` and size
2048 gets exactly one helper whose filler body is `floor((2048-2)/29) = 70`
pairs of 29 bytes — 2030 bytes of inert padding, within one instruction
width of the requested 2048. -/
theorem c5_amended :
    (∀ (opts : GenOptions) (rng : Nat → Nat),
      (startModule opts).size = 0 ∧ (startModule opts).helperBody rng = none) ∧
    ∃ child, (startModule opts5b).children = [child] ∧ child.size = 2048 ∧
      (child.helperBody (fun _ => min_range)).map
        (fun body => ((body.map String.length).sum, body.length))
        = some (2030, 70) ∧
      2048 - instruction_length <
        2030 + 2 * child.opsJoined.length ∧
      2030 + 2 * child.opsJoined.length ≤ 2048 := by
  constructor
  · intro opts rng
    exact ⟨rfl, rfl⟩
  · exact ⟨mkChildModule ["A"] "A0" 1 0 2048 false [], rfl, rfl, by decide, by decide, by decide⟩

/-! ## C3: value of the emitted entry functions -/

/-- Value of a JavaScript left-associated sum expression `v1+v2+...+vk`. -/
def jsSum : List Nat → Nat
  | [] => 0
  | v :: vs => vs.foldl (· + ·) v

theorem foldl_add_sum : ∀ (l : List Nat) (a : Nat), l.foldl (· + ·) a = a + l.sum := by
  intro l
  induction l with
  | nil => intro a; simp
  | cons x xs ih =>
    intro a
    rw [List.foldl_cons, ih, List.sum_cons]
    omega

theorem jsSum_append_one : ∀ l : List Nat, jsSum (l ++ [1]) = l.sum + 1 := by
  intro l
  cases l with
  | nil => rfl
  | cons v vs =>
    show (vs ++ [1]).foldl (· + ·) v = (v :: vs).sum + 1
    rw [foldl_add_sum, List.sum_append, List.sum_cons]
    simp
    omega

mutual

/-- Value of the eager-mode entry function `f_{name}` emitted by
`Module.export` for a static-import node (gen.py:195-211), with the payload
helper branch not triggered (`document.evaluate_all` falsy, so `a` stays 1):
the emitted body is `let a=1; return f_c1()+...+f_ck()+a;`. -/
def GModule.evalStatic : GModule → Nat
  | .mk _ _ _ _ _ _ _ _ cs => jsSum (evalStaticList cs ++ [1])

def evalStaticList : List GModule → List Nat
  | [] => []
  | c :: cs => c.evalStatic :: evalStaticList cs

end

mutual

/-- Value of the deferred-mode entry function emitted by `Module.export`
for a dynamic-import node (gen.py:193, 201-207): `let a=1; const results =
await Promise.all([<one load-and-invoke per child>]); for (let result of
results) a += result; return a;`. -/
def GModule.evalDynamic : GModule → Nat
  | .mk _ _ _ _ _ _ _ _ cs => (evalDynamicList cs).foldl (· + ·) 1

def evalDynamicList : List GModule → List Nat
  | [] => []
  | c :: cs => c.evalDynamic :: evalDynamicList cs

end

theorem evalStaticList_eq_map : ∀ cs : List GModule,
    evalStaticList cs = cs.map GModule.evalStatic := by
  intro cs
  induction cs with
  | nil => rfl
  | cons c cs ih => rw [evalStaticList, List.map_cons, ih]

mutual

theorem evalDynamic_eq_evalStatic : ∀ m : GModule, m.evalDynamic = m.evalStatic
  | .mk sn d i z b n p sp cs => by
    show (evalDynamicList cs).foldl (· + ·) 1 = jsSum (evalStaticList cs ++ [1])
    rw [evalDynamicList_eq_evalStaticList cs, foldl_add_sum, jsSum_append_one]
    omega

theorem evalDynamicList_eq_evalStaticList : ∀ cs : List GModule,
    evalDynamicList cs = evalStaticList cs
  | [] => rfl
  | c :: cs => by
    rw [evalDynamicList, evalStaticList, evalDynamic_eq_evalStatic c,
      evalDynamicList_eq_evalStaticList cs]

end

/-- C3: for every node, the eager-mode entry function returns 1 plus the sum
of its children's entry-function results (recursively, the helper branch not
being triggered), and the deferred-mode entry function computes the same
total for the same tree shape. -/
theorem c3_entry_totals (m : GModule) :
    m.evalStatic = 1 + (m.children.map GModule.evalStatic).sum ∧
    m.evalDynamic = m.evalStatic := by
  constructor
  · match m with
    | .mk sn d i z b n p sp cs =>
      show jsSum (evalStaticList cs ++ [1]) = 1 + ((GModule.mk sn d i z b n p sp cs).children.map GModule.evalStatic).sum
      rw [jsSum_append_one, evalStaticList_eq_map]
      show (List.map GModule.evalStatic cs).sum + 1 = 1 + (List.map GModule.evalStatic cs).sum
      omega
  · exact evalDynamic_eq_evalStatic m

/-! ## C2: the topological sort in `Benchmark.export_modules` -/

/-- Python tuple comparison (`<=`) on `path.parts`: lexicographic over
component strings. -/
def partsLe : List String → List String → Bool
  | [], _ => true
  | _ :: _, [] => false
  | a :: as, b :: bs => if a = b then partsLe as bs else decide (a < b)

/-- The sort key comparison of `export_modules`
(`key=lambda m: (len(m.path.parts), m.path.parts)`): compare component
counts first, then the component tuples lexicographically. -/
def moduleKeyLe (x y : GModule) : Bool :=
  if x.path.length = y.path.length then partsLe x.path y.path
  else decide (x.path.length < y.path.length)

theorem partsLe_total : ∀ a b : List String, partsLe a b || partsLe b a := by
  intro a
  induction a with
  | nil => intro b; simp [partsLe]
  | cons x xs ih =>
    intro b
    cases b with
    | nil => simp [partsLe]
    | cons y ys =>
      by_cases h : x = y
      · subst h
        simp only [partsLe, if_pos rfl]
        exact ih ys
      · rcases lt_or_gt_of_ne h with hlt | hgt
        · simp [partsLe, h, hlt]
        · simp [partsLe, h, Ne.symm h, hgt]

theorem partsLe_trans : ∀ a b c : List String,
    partsLe a b = true → partsLe b c = true → partsLe a c = true := by
  intro a
  induction a with
  | nil => intro b c _ _; rfl
  | cons x xs ih =>
    intro b c hab hbc
    cases b with
    | nil => simp [partsLe] at hab
    | cons y ys =>
      cases c with
      | nil => simp [partsLe] at hbc
      | cons z zs =>
        by_cases hxy : x = y <;> by_cases hyz : y = z
        · subst hxy; subst hyz
          simp only [partsLe, if_pos rfl] at hab hbc ⊢
          exact ih ys zs hab hbc
        · subst hxy
          simp only [partsLe, if_pos rfl, if_neg hyz] at hbc
          simp only [partsLe, if_neg hyz]
          exact hbc
        · subst hyz
          simp only [partsLe, if_neg hxy] at hab
          simp only [partsLe, if_neg hxy]
          exact hab
        · simp only [partsLe, if_neg hxy] at hab
          simp only [partsLe, if_neg hyz] at hbc
          have hxz : x < z := lt_trans (of_decide_eq_true hab) (of_decide_eq_true hbc)
          simp only [partsLe, if_neg (ne_of_lt hxz)]
          exact decide_eq_true hxz

theorem moduleKeyLe_trans : ∀ x y z : GModule,
    moduleKeyLe x y → moduleKeyLe y z → moduleKeyLe x z := by
  intro x y z hxy hyz
  unfold moduleKeyLe at *
  by_cases h1 : x.path.length = y.path.length <;>
    by_cases h2 : y.path.length = z.path.length
  · rw [if_pos h1] at hxy
    rw [if_pos h2] at hyz
    rw [if_pos (h1.trans h2)]
    exact partsLe_trans _ _ _ hxy hyz
  · rw [if_neg h2] at hyz
    have := of_decide_eq_true hyz
    rw [if_neg (by omega)]
    exact decide_eq_true (by omega)
  · rw [if_neg h1] at hxy
    have := of_decide_eq_true hxy
    rw [if_neg (by omega)]
    exact decide_eq_true (by omega)
  · rw [if_neg h1] at hxy
    rw [if_neg h2] at hyz
    have l1 := of_decide_eq_true hxy
    have l2 := of_decide_eq_true hyz
    rw [if_neg (by omega)]
    exact decide_eq_true (by omega)

theorem moduleKeyLe_total : ∀ x y : GModule, moduleKeyLe x y || moduleKeyLe y x := by
  intro x y
  unfold moduleKeyLe
  by_cases h : x.path.length = y.path.length
  · rw [if_pos h, if_pos h.symm]
    exact partsLe_total _ _
  · rw [if_neg h, if_neg (Ne.symm h)]
    rcases Nat.lt_or_ge x.path.length y.path.length with hlt | hge
    · simp [hlt]
    · simp [lt_of_le_of_ne hge (Ne.symm h)]

/-- The in-place sort at the end of `Benchmark.export_modules`
(gen.py:320). -/
def sortModules (l : List GModule) : List GModule := l.mergeSort moduleKeyLe

/-- `Benchmark.modules` after `export_modules` ran (for configurations where
`create_module_tree` produced a list at all). -/
def sortedModules (opts : GenOptions) : List GModule :=
  sortModules (startModule opts).flatten

/-- C2: after export the module list is sorted so that a node with strictly
more path components never precedes one with fewer, nodes with equally many
components are in lexicographic order of their component tuples, and the
sorted list is a permutation of the accumulated node list. -/
theorem c2_export_sorted (opts : GenOptions) :
    (sortedModules opts).Pairwise (fun x y =>
      x.path.length ≤ y.path.length ∧
      (x.path.length = y.path.length → partsLe x.path y.path = true)) ∧
    (sortedModules opts).Perm (startModule opts).flatten := by
  constructor
  · have hs := @List.sorted_mergeSort GModule moduleKeyLe moduleKeyLe_trans
      moduleKeyLe_total (startModule opts).flatten
    refine hs.imp (fun {x y} h => ?_)
    unfold moduleKeyLe at h
    by_cases hl : x.path.length = y.path.length
    · rw [if_pos hl] at h
      exact ⟨le_of_eq hl, fun _ => h⟩
    · rw [if_neg hl] at h
      have := of_decide_eq_true h
      exact ⟨le_of_lt this, fun he => absurd he hl⟩
  · exact List.mergeSort_perm _ _

/-! ## C4: path construction and global uniqueness -/

theorem flattenList_eq_flatMap : ∀ cs : List GModule,
    flattenList cs = cs.flatMap (fun c => c :: c.flatten)
  | [] => rfl
  | c :: cs => by
    rw [flattenList, List.flatMap_cons, flattenList_eq_flatMap cs, List.cons_append]

theorem mem_flattenList {n : GModule} {cs : List GModule} :
    n ∈ flattenList cs ↔ ∃ c ∈ cs, n = c ∨ n ∈ c.flatten := by
  rw [flattenList_eq_flatMap]
  simp [List.mem_flatMap]

theorem childName_data (c : Char) (i : Nat) :
    (childName c i).data = c :: (natRepr i).data := rfl

theorem childName_shaped (c : Char) (i : Nat) : ShapedD (childName c i).data :=
  ⟨c, (natRepr i).data, childName_data c i, natRepr_ne_nil i, natRepr_digits i⟩

theorem childName_inj_index {c c' : Char} {i i' : Nat}
    (h : childName c i = childName c' i') : i = i' := by
  have hd := congrArg String.data h
  rw [childName_data, childName_data] at hd
  injection hd with h1 h2
  exact natRepr_inj _ _ (String.ext h2)

/-- Structural invariant of every node generated below a parent whose
subdirectory path is `sub`: its ancestor-name chain extends `sub` by a
non-empty run of shaped sibling names, its unique name is the
underscore-join of its chain, its file path is its parent's chain plus
`name + ".mjs"`, and its own children were generated below its own chain. -/
def NodeInv (opts : GenOptions) (sub : List String) (n : GModule) : Prop :=
  ∃ t, t ≠ [] ∧ (∀ s ∈ t, ShapedD s.data) ∧
    n.submodule_path = sub ++ t ∧
    n.name = joinU (sub ++ t) ∧
    n.path = sub ++ (t.dropLast ++ [joinU (sub ++ t) ++ ".mjs"]) ∧
    ∃ f d s, n.children = expandChildren opts f d (sub ++ t) s

theorem expand_invariant (opts : GenOptions) :
    ∀ (fuel depth : Nat) (sub : List String) (sym : Char),
    ∀ n ∈ flattenList (expandChildren opts fuel depth sub sym), NodeInv opts sub n := by
  intro fuel
  induction fuel with
  | zero =>
    intro depth sub sym n hn
    simp [expandChildren, flattenList] at hn
  | succ fuel ih =>
    intro depth sub sym n hn
    rw [expandChildren] at hn
    split at hn
    · simp [flattenList] at hn
    · split at hn
      · simp [flattenList] at hn
      · rename_i expansion hrule
        rw [mem_flattenList] at hn
        obtain ⟨c, hc, hcase⟩ := hn
        rw [List.mem_map] at hc
        obtain ⟨p, hp, rfl⟩ := hc
        rcases hcase with rfl | hmem
        · refine ⟨[childName p.2 p.1], by simp, ?_, rfl, rfl, rfl,
            ⟨fuel, depth + 1, p.2, rfl⟩⟩
          intro s hs
          rw [List.mem_singleton] at hs
          subst hs
          exact childName_shaped p.2 p.1
        · have hflat : (mkChildModule sub (childName p.2 p.1) (depth + 1) p.1
              (lookupSize opts.sizes p.2) opts.dynamic_imports
              (expandChildren opts fuel (depth + 1)
                (sub ++ [childName p.2 p.1]) p.2)).flatten
              = flattenList (expandChildren opts fuel (depth + 1)
                  (sub ++ [childName p.2 p.1]) p.2) := rfl
          rw [hflat] at hmem
          obtain ⟨t', ht'ne, ht'sh, hsub, hname, hpath, hch⟩ :=
            ih (depth + 1) (sub ++ [childName p.2 p.1]) p.2 n hmem
          refine ⟨childName p.2 p.1 :: t', by simp, ?_, ?_, ?_, ?_, ?_⟩
          · intro s hs
            rcases List.mem_cons.mp hs with rfl | hs'
            · exact childName_shaped p.2 p.1
            · exact ht'sh s hs'
          · rw [hsub, List.append_assoc]
            rfl
          · rw [hname, List.append_assoc]
            rfl
          · rw [hpath, List.dropLast_cons_of_ne_nil ht'ne]
            simp only [List.append_assoc, List.cons_append, List.singleton_append,
              List.nil_append]
          · obtain ⟨f, d, s, hc⟩ := hch
            refine ⟨f, d, s, ?_⟩
            rw [hc, List.append_assoc]
            rfl

theorem expand_nodup (opts : GenOptions) :
    ∀ (fuel depth : Nat) (sub : List String) (sym : Char),
    ((flattenList (expandChildren opts fuel depth sub sym)).map
      GModule.submodule_path).Nodup := by
  intro fuel
  induction fuel with
  | zero => intro depth sub sym; simp [expandChildren, flattenList]
  | succ fuel ih =>
    intro depth sub sym
    rw [expandChildren]
    split
    · simp [flattenList]
    · split
      · simp [flattenList]
      · rename_i expansion hrule
        rw [flattenList_eq_flatMap, List.flatMap_map, List.map_flatMap,
          List.nodup_flatMap]
        have form : ∀ (p : Nat × Char) (x : List String),
            x ∈ (mkChildModule sub (childName p.2 p.1) (depth + 1) p.1
                  (lookupSize opts.sizes p.2) opts.dynamic_imports
                  (expandChildren opts fuel (depth + 1)
                    (sub ++ [childName p.2 p.1]) p.2)
                :: (mkChildModule sub (childName p.2 p.1) (depth + 1) p.1
                  (lookupSize opts.sizes p.2) opts.dynamic_imports
                  (expandChildren opts fuel (depth + 1)
                    (sub ++ [childName p.2 p.1]) p.2)).flatten).map
                GModule.submodule_path →
            ∃ r, x = sub ++ (childName p.2 p.1 :: r) := by
          intro p x hx
          rw [List.map_cons, List.mem_cons] at hx
          rcases hx with rfl | hx
          · exact ⟨[], rfl⟩
          · rw [List.mem_map] at hx
            obtain ⟨n, hn, rfl⟩ := hx
            obtain ⟨t', -, -, hsub, -, -, -⟩ := expand_invariant opts fuel (depth + 1)
              (sub ++ [childName p.2 p.1]) p.2 n hn
            refine ⟨t', ?_⟩
            rw [hsub, List.append_assoc]
            rfl
        constructor
        · intro p hp
          rw [List.map_cons, List.nodup_cons]
          constructor
          · intro hmem
            rw [List.mem_map] at hmem
            obtain ⟨n, hn, heq⟩ := hmem
            obtain ⟨t', ht'ne, -, hsub, -, -, -⟩ := expand_invariant opts fuel (depth + 1)
              (sub ++ [childName p.2 p.1]) p.2 n hn
            rw [hsub] at heq
            have hfp : (mkChildModule sub (childName p.2 p.1) (depth + 1) p.1
                (lookupSize opts.sizes p.2) opts.dynamic_imports
                (expandChildren opts fuel (depth + 1)
                  (sub ++ [childName p.2 p.1]) p.2)).submodule_path
                = sub ++ [childName p.2 p.1] := rfl
            rw [hfp] at heq
            have hlen := congrArg List.length heq
            rw [List.length_append] at hlen
            exact ht'ne (List.length_eq_zero.mp (by omega))
          · exact ih (depth + 1) (sub ++ [childName p.2 p.1]) p.2
        · have hpw : (expansion.data.enum).Pairwise (fun p q => p.1 ≠ q.1) := by
            have hnd := List.nodup_enum_map_fst expansion.data
            rwa [List.Nodup, List.pairwise_map] at hnd
          refine hpw.imp ?_
          intro p q hpq
          simp only [Function.onFun]
          intro x hxp hxq
          obtain ⟨r, hr⟩ := form p x hxp
          obtain ⟨r', hr'⟩ := form q x hxq
          rw [hr] at hr'
          have hcan := List.append_cancel_left hr'
          injection hcan with h1 _
          exact hpq (childName_inj_index h1)

/-- All nodes of the generated tree: the root followed by the accumulated
(non-root) nodes. -/
def allNodes (opts : GenOptions) : List GModule :=
  startModule opts :: (startModule opts).flatten

theorem allNodes_form (opts : GenOptions) : ∀ n ∈ allNodes opts,
    n.name = joinU n.submodule_path ∧
    (∃ tl, n.submodule_path = "A" :: tl ∧ ∀ s ∈ tl, ShapedD s.data) ∧
    n.path = n.submodule_path.dropLast ++ [n.name ++ ".mjs"] ∧
    ∃ f d s, n.children = expandChildren opts f d n.submodule_path s := by
  intro n hn
  rcases List.mem_cons.mp hn with rfl | hn
  · exact ⟨rfl, ⟨[], rfl, by simp⟩, rfl, ⟨opts.depth + 1, 0, 'A', rfl⟩⟩
  · obtain ⟨t, htne, hsh, hsub, hname, hpath, hch⟩ :=
      expand_invariant opts (opts.depth + 1) 0 ["A"] 'A' n hn
    refine ⟨?_, ⟨t, by rw [hsub]; rfl, hsh⟩, ?_, ?_⟩
    · rw [hname, hsub]
    · rw [hpath, hname, hsub, List.dropLast_append_of_ne_nil _ htne]
      rw [List.append_assoc]
    · obtain ⟨f, d, s, h⟩ := hch
      exact ⟨f, d, s, by rw [h, hsub]⟩

theorem allNodes_chains_nodup (opts : GenOptions) :
    ((allNodes opts).map GModule.submodule_path).Nodup := by
  rw [allNodes, List.map_cons, List.nodup_cons]
  constructor
  · intro hmem
    rw [List.mem_map] at hmem
    obtain ⟨n, hn, heq⟩ := hmem
    obtain ⟨t, htne, -, hsub, -, -, -⟩ :=
      expand_invariant opts (opts.depth + 1) 0 ["A"] 'A' n hn
    rw [hsub] at heq
    have hroot : (startModule opts).submodule_path = ["A"] := rfl
    rw [hroot] at heq
    have hlen := congrArg List.length heq
    simp only [List.length_append, List.length_cons, List.length_nil] at hlen
    exact htne (List.length_eq_zero.mp (by omega))
  · exact expand_nodup opts (opts.depth + 1) 0 ["A"] 'A'

theorem allNodes_names_nodup (opts : GenOptions) :
    ((allNodes opts).map GModule.name).Nodup := by
  have hch := allNodes_chains_nodup opts
  rw [List.Nodup, List.pairwise_map] at hch ⊢
  refine hch.imp_of_mem ?_
  intro a b ha hb hne hname
  obtain ⟨hna, ⟨ta, hsa, hsha⟩, -, -⟩ := allNodes_form opts a ha
  obtain ⟨hnb, ⟨tb, hsb, hshb⟩, -, -⟩ := allNodes_form opts b hb
  apply hne
  rw [hsa, hsb]
  rw [hna, hnb, hsa, hsb] at hname
  rw [joinU_inj_cons "A" ta tb hsha hshb hname]

theorem allNodes_paths_nodup (opts : GenOptions) :
    ((allNodes opts).map GModule.path).Nodup := by
  have hnm := allNodes_names_nodup opts
  rw [List.Nodup, List.pairwise_map] at hnm ⊢
  refine hnm.imp_of_mem ?_
  intro a b ha hb hne hpath
  obtain ⟨-, -, hpa, -⟩ := allNodes_form opts a ha
  obtain ⟨-, -, hpb, -⟩ := allNodes_form opts b hb
  apply hne
  rw [hpa, hpb] at hpath
  have hlast := congrArg List.getLast? hpath
  rw [List.getLast?_concat, List.getLast?_concat] at hlast
  injection hlast with hlast
  have hdata := congrArg String.data hlast
  rw [String.data_append, String.data_append] at hdata
  exact String.ext (List.append_cancel_right hdata)

theorem mem_expandChildren_form (opts : GenOptions) :
    ∀ (fuel d : Nat) (ch : List String) (s : Char) (c : GModule),
    c ∈ expandChildren opts fuel d ch s →
    c.submodule_path = ch ++ [c.simple_name] ∧
    c.name = joinU (ch ++ [c.simple_name]) ∧
    c.path = ch ++ [c.name ++ ".mjs"] := by
  intro fuel d ch s c hc
  match fuel with
  | 0 => simp [expandChildren] at hc
  | fuel + 1 =>
    rw [expandChildren] at hc
    split at hc
    · simp at hc
    · split at hc
      · simp at hc
      · rw [List.mem_map] at hc
        obtain ⟨p, hp, rfl⟩ := hc
        exact ⟨rfl, rfl, rfl⟩

/-- C4: in the generated tree, every non-root node's file path is its
parent's subdirectory path followed by its qualified name (the `"_"`-join of
the local names along its ancestor chain) plus the `.mjs` extension; the
root's subdirectory chain is its own local name; and no two distinct nodes
of the tree share a file path. -/
theorem c4_paths_unique (opts : GenOptions) :
    (startModule opts).submodule_path = [(startModule opts).simple_name] ∧
    (∀ p ∈ allNodes opts, ∀ c ∈ p.children,
      c.submodule_path = p.submodule_path ++ [c.simple_name] ∧
      c.name = joinU (p.submodule_path ++ [c.simple_name]) ∧
      c.path = p.submodule_path ++ [c.name ++ ".mjs"]) ∧
    ((allNodes opts).map GModule.path).Nodup := by
  refine ⟨rfl, ?_, allNodes_paths_nodup opts⟩
  intro p hp c hc
  obtain ⟨-, -, -, f, d, s, hch⟩ := allNodes_form opts p hp
  rw [hch] at hc
  exact mem_expandChildren_form opts f d p.submodule_path s c hc

/-! ## C8 and C10: the benchmark pages and the index -/

/-- One rendered comparison page: file name, the `$module` entry reference,
the `modulepreload` link targets substituted into `$headers`, and the
`<script type="module">` sources substituted into `$scripts`. -/
structure Page where
  name : String
  moduleRef : String
  preloadLinks : List (List String)
  scriptSrcs : List (List String)

/-- `Benchmark.output_headers` (gen.py:409-415): one `modulepreload` link
per module of `self.modules[:prefetch_count]`, identified by its link
target path. -/
def outputHeaders (modules : List GModule) (prefetch_count : Nat) : List (List String) :=
  (modules.take prefetch_count).map GModule.path

/-- `Benchmark.output_scripts` (gen.py:432-438): one module script tag per
module of `self.modules[:preload_count]`, identified by its `src` path. -/
def outputScripts (modules : List GModule) (preload_count : Nat) : List (List String) :=
  (modules.take preload_count).map GModule.path

/-- `Benchmark.export_html` (gen.py:340-357): the three plain benchmark
pages (entry module `./A.mjs`), then — static mode only — the rollup bundle
page (entry `./bundled.mjs`) and the webbundle page (entry `./A.mjs`; its
`$headers` holds the webbundle script tag, no preload links).
`export_index` then renders one link per page of this list
(`output_benchmark_list`). -/
def exportHtml (opts : GenOptions) (modules : List GModule) : List Page :=
  [⟨"unbundled.html", "./A.mjs", outputHeaders modules 0, outputScripts modules 0⟩,
   ⟨"modulepreload.html", "./A.mjs", outputHeaders modules modules.length,
     outputScripts modules 0⟩,
   ⟨"script-preload.html", "./A.mjs", outputHeaders modules 0,
     outputScripts modules modules.length⟩]
  ++ (if opts.dynamic_imports then []
      else [⟨"rollup.html", "./bundled.mjs", [], []⟩,
            ⟨"webbundle.html", "./A.mjs", [], []⟩])

/-- The benchmark list rendered into `index.html`. -/
def indexBenchmarks (opts : GenOptions) (modules : List GModule) : List String :=
  (exportHtml opts modules).map Page.name

/-- C8: with deferred (dynamic) loading the bundled (`rollup.html`) and
packaged (`webbundle.html`) comparison pages are not generated and are
absent from the index benchmark list, while the unbundled and two preload
pages are still produced; with static loading all five appear. -/
theorem c8_bundles_skipped (opts : GenOptions) (modules : List GModule) :
    (opts.dynamic_imports = true →
      indexBenchmarks opts modules =
        ["unbundled.html", "modulepreload.html", "script-preload.html"]) ∧
    (opts.dynamic_imports = false →
      indexBenchmarks opts modules =
        ["unbundled.html", "modulepreload.html", "script-preload.html",
         "rollup.html", "webbundle.html"]) := by
  constructor <;> intro h <;> simp [indexBenchmarks, exportHtml, h]

theorem c8_bundles_skipped_witness :
    indexBenchmarks ⟨2, [('A', "AB"), ('B', "BBB")], [], true⟩ [] =
      ["unbundled.html", "modulepreload.html", "script-preload.html"] ∧
    indexBenchmarks opts1 [] =
      ["unbundled.html", "modulepreload.html", "script-preload.html",
       "rollup.html", "webbundle.html"] :=
  ⟨(c8_bundles_skipped ⟨2, [('A', "AB"), ('B', "BBB")], [], true⟩ []).1 rfl,
   (c8_bundles_skipped opts1 []).2 rfl⟩

theorem root_not_in_flatten_paths (opts : GenOptions) :
    ∀ m ∈ (startModule opts).flatten, m.path ≠ (startModule opts).path := by
  intro m hm
  obtain ⟨t, -, -, -, -, hpath, -⟩ :=
    expand_invariant opts (opts.depth + 1) 0 ["A"] 'A' m hm
  intro hcontra
  have hroot : (startModule opts).path = ["A.mjs"] := rfl
  rw [hpath, hroot] at hcontra
  have hlen := congrArg List.length hcontra
  simp only [List.length_append, List.length_cons, List.length_nil] at hlen
  omega

theorem root_not_preloaded (opts : GenOptions) (k : Nat) :
    (startModule opts).path ∉ ((sortedModules opts).take k).map GModule.path := by
  intro hmem
  rw [List.mem_map] at hmem
  obtain ⟨m, hm, heq⟩ := hmem
  have hm' : m ∈ sortedModules opts := List.mem_of_mem_take hm
  have hm'' : m ∈ (startModule opts).flatten := by
    rw [sortedModules, sortModules, List.mem_mergeSort] at hm'
    exact hm'
  exact root_not_in_flatten_paths opts m hm'' heq

/-- C10 counterexample: in static mode the bundled comparison page
(`rollup.html`) references `./bundled.mjs` as its entry module, so it is not
true that every comparison page references `./A.mjs`. -/
theorem c10_counterexample :
    ((exportHtml opts1 ((startModule opts1).flatten)).find?
      (fun p => p.name == "rollup.html")).map Page.moduleRef
      = some "./bundled.mjs" := rfl

/-- C10 (amended): the root module never enters the flat module list, so for
every configuration and every prefix count neither `output_headers` nor
`output_scripts` ever emits a hint for the root artifact, and no page's
preload links or script tags mention the root's path; the unbundled,
modulepreload, script-preload and webbundle pages all reference `./A.mjs`
as entry module, while the rollup bundled page references `./bundled.mjs`. -/
theorem c10_root_never_preloaded (opts : GenOptions) (n : Nat) :
    (∀ m ∈ (startModule opts).flatten, m.path ≠ (startModule opts).path) ∧
    (startModule opts).path ∉ outputHeaders (sortedModules opts) n ∧
    (startModule opts).path ∉ outputScripts (sortedModules opts) n ∧
    (∀ p ∈ exportHtml opts (sortedModules opts),
      p.name ≠ "rollup.html" → p.moduleRef = "./A.mjs") ∧
    (∀ p ∈ exportHtml opts (sortedModules opts),
      (startModule opts).path ∉ p.preloadLinks ∧
      (startModule opts).path ∉ p.scriptSrcs) := by
  refine ⟨root_not_in_flatten_paths opts, root_not_preloaded opts n,
    root_not_preloaded opts n, ?_, ?_⟩
  · intro p hp
    rw [exportHtml, List.mem_append] at hp
    rcases hp with h3 | h2
    · simp only [List.mem_cons, List.not_mem_nil, or_false] at h3
      rcases h3 with rfl | rfl | rfl <;> intro _ <;> rfl
    · split at h2
      · simp at h2
      · simp only [List.mem_cons, List.not_mem_nil, or_false] at h2
        rcases h2 with rfl | rfl
        · intro hne; exact absurd rfl hne
        · intro _; rfl
  · intro p hp
    rw [exportHtml, List.mem_append] at hp
    rcases hp with h3 | h2
    · simp only [List.mem_cons, List.not_mem_nil, or_false] at h3
      rcases h3 with rfl | rfl | rfl <;>
        exact ⟨root_not_preloaded opts _, root_not_preloaded opts _⟩
    · split at h2
      · simp at h2
      · simp only [List.mem_cons, List.not_mem_nil, or_false] at h2
        rcases h2 with rfl | rfl <;> exact ⟨List.not_mem_nil _, List.not_mem_nil _⟩

instance : Inhabited GModule := ⟨mkRootModule "A" false []⟩

instance : Inhabited Page := ⟨⟨"", "", [], []⟩⟩

theorem c4_paths_unique_witness :
    ((allNodes opts1).map GModule.path).Nodup ∧
    (startModule opts1).children.headI.path
      = (startModule opts1).submodule_path
        ++ [(startModule opts1).children.headI.name ++ ".mjs"] := by
  have h := c4_paths_unique opts1
  have hne : (startModule opts1).children ≠ [] := by
    have hlen : 0 < (startModule opts1).children.length := by decide
    exact List.length_pos.mp hlen
  have hmem : (startModule opts1).children.headI ∈ (startModule opts1).children := by
    cases hc : (startModule opts1).children with
    | nil => exact absurd hc hne
    | cons a l => exact List.mem_cons_self _ _
  exact ⟨h.2.2, (h.2.1 _ (List.mem_cons_self _ _) _ hmem).2.2⟩

theorem c10_root_never_preloaded_witness :
    (startModule opts1).path ∉ outputHeaders (sortedModules opts1) 7 ∧
    (startModule opts1).path ∉ outputScripts (sortedModules opts1) 7 ∧
    (exportHtml opts1 (sortedModules opts1)).headI.moduleRef = "./A.mjs" := by
  have h := c10_root_never_preloaded opts1 7
  refine ⟨h.2.1, h.2.2.1, ?_⟩
  have hmem : (exportHtml opts1 (sortedModules opts1)).headI
      ∈ exportHtml opts1 (sortedModules opts1) := by
    cases hc : exportHtml opts1 (sortedModules opts1) with
    | nil => simp [exportHtml] at hc
    | cons a l => exact List.mem_cons_self _ _
  exact h.2.2.2.1 _ hmem (by decide)
